import Mathlib

/-!
# Verification of the Calendar event engine (Mango-Apps)

Shallow embedding of the Calendar application's event-merge, statistics,
expansion, validation and PDF-segmentation logic
(`src/Calendar/utils/{event_merger,schedule_stats,schedule_io,validators,
calendar_io,date_utils,pdf_generator,color_palette}.py`), together with
proofs of the specification's claims about it.

Modelling conventions:
* `"HH:MM"` time strings are represented by their parsed value in
  minutes-since-midnight (`ℤ`).  `date_utils.parse_time` and
  `date_utils.format_time` form a bijection on canonical zero-padded
  `HH:MM` strings (the only form accepted by the validators), and the
  merge/statistics/PDF modules only ever compare, add and subtract the
  parsed values before formatting them back, so this representation is
  faithful for those modules.  The validator module, whose whole point is
  to check raw strings, is embedded over genuine `String`s below.
* Python dicts with a fixed key set are represented by structures; a key
  that may be absent becomes an `Option` field.
* Python floats produced by `x / 60.0` are represented in `ℚ`; every
  value the code produces here is a small integer divided by 60, which
  floats represent exactly.
* Python's stable `list.sort(key=…)` is `List.insertionSort` with the
  non-strict key comparison, which is the standard stable model.
-/

/-- An event record as it flows through `event_merger.py`,
`schedule_stats.py` and `pdf_generator.py`: an expanded schedule event or
a direct calendar event.  Python key `end` is the Lean field `stop`,
`type` is `etype`, `_source` is `source`, `_split` is `split`,
`_original_idx`-style bookkeeping fields are irrelevant here and omitted
from this merged-domain record. -/
structure MEvent where
  day : Option ℤ
  date : Option String
  start : ℤ
  stop : ℤ
  title : String
  etype : String
  sub : Option String
  overwriteable : Bool
  source : Option String
  split : Option String
deriving DecidableEq

/-- Model of `date_utils.time_overlaps` on parsed minutes: two half-open ranges
overlap iff each starts before the other ends. -/
def time_overlaps (s1 e1 s2 e2 : ℤ) : Bool :=
  s1 < e2 && s2 < e1

/-- Model of `schedule_stats.time_ranges_overlap` / `pdf_generator.time_ranges_overlap`
(same formula as `date_utils.time_overlaps`). -/
def time_ranges_overlap (start1 end1 start2 end2 : ℤ) : Bool :=
  start1 < end2 && end1 > start2

/-- Model of `event_merger.split_schedule_event`: split a schedule event around a
direct event, producing 0-2 segments (before and/or after). -/
def split_schedule_event (schedule_event direct_event : MEvent) : List MEvent :=
  let sched_start := schedule_event.start
  let sched_end := schedule_event.stop
  let direct_start := direct_event.start
  let direct_end := direct_event.stop
  let before : List MEvent :=
    if sched_start < direct_start then
      let before_end := min sched_end direct_start
      if sched_start < before_end then
        [{ schedule_event with start := sched_start, stop := before_end,
                               split := some "before" }]
      else []
    else []
  let after : List MEvent :=
    if sched_end > direct_end then
      let after_start := max sched_start direct_end
      if after_start < sched_end then
        [{ schedule_event with start := after_start, stop := sched_end,
                               split := some "after" }]
      else []
    else []
  before ++ after

/-- Model of `event_merger.mark_event_source` (on fresh copies, as used by
`merge_events`). -/
def mark_event_source (events : List MEvent) (source_type : String) : List MEvent :=
  events.map (fun e => { e with source := some source_type })

/-- Key comparison used by every `sort(key=parse_time(e['start']))` call. -/
def startLE (a b : MEvent) : Prop := a.start ≤ b.start

instance : DecidableRel startLE := fun a b => Int.decLe a.start b.start

instance : IsTotal MEvent startLE := ⟨fun a b => Int.le_total a.start b.start⟩

instance : IsTrans MEvent startLE := ⟨fun _ _ _ h1 h2 => le_trans h1 h2⟩

/-- One pass of the inner loop of `event_merger.process_overlaps`: split
every current segment around one direct event (segments that do not
overlap it pass through unchanged). -/
def process_one_direct (current_segments : List MEvent) (direct_event : MEvent) : List MEvent :=
  current_segments.flatMap (fun segment =>
    if time_overlaps segment.start segment.stop direct_event.start direct_event.stop
    then split_schedule_event segment direct_event
    else [segment])

/-- Model of `event_merger.process_overlaps`: fold every schedule event over all
direct events sorted by start time. -/
def process_overlaps (schedule_events direct_events : List MEvent) : List MEvent :=
  if direct_events = [] then schedule_events
  else
    let sorted_direct := List.insertionSort startLE direct_events
    schedule_events.flatMap (fun sched_event =>
      sorted_direct.foldl process_one_direct [sched_event])

/-- Model of `event_merger.merge_events`: mark sources, split schedule events
around direct events, concatenate and stable-sort by start time.  The
`date` argument is accepted (as in the source) but unused. -/
def merge_events (schedule_events direct_events : List MEvent) (date : String) : List MEvent :=
  let schedule_marked := mark_event_source schedule_events "schedule"
  let direct_marked := mark_event_source direct_events "direct"
  let processed_schedule := process_overlaps schedule_marked direct_marked
  let _ := date
  List.insertionSort startLE (processed_schedule ++ direct_marked)

/-- Model of `event_merger.get_events_for_day`: filter schedule events for a day
of week, normalizing the legacy value 7 to Sunday (6). -/
def get_events_for_day (schedule_events : List MEvent) (day_index : ℤ) : List MEvent :=
  match schedule_events with
  | [] => []
  | event :: rest =>
      let tail := get_events_for_day rest day_index
      match event.day with
      | none => tail
      | some event_day =>
          let normalized : ℤ := if event_day = 7 then 6 else event_day
          if normalized = day_index then event :: tail else tail

/-- Sample schedule event 09:00-10:30 (Wednesday, overwriteable), from the
spec's concrete scenario. -/
def sampleSched : MEvent :=
  { day := some 2, date := none, start := 540, stop := 630, title := "Standup",
    etype := "work", sub := none, overwriteable := true, source := none, split := none }

/-- Sample direct event 09:15-09:45 on a Wednesday, from the spec's
concrete scenario. -/
def sampleDirect : MEvent :=
  { day := none, date := some "2025-10-08", start := 555, stop := 585, title := "Call",
    etype := "other", sub := none, overwriteable := false, source := none, split := none }

/-- C1: for overlapping schedule event `S` and direct event `D`,
`split_schedule_event` returns exactly the split rule's segments: a
"before" segment `[S.start, min(S.stop, D.start)]` iff `S.start < D.start`
and an "after" segment `[max(S.start, D.stop), S.stop]` iff
`S.stop > D.stop` (zero-length segments never survive under the overlap
hypothesis); when `D` is strictly inside `S` exactly two segments result
and their durations plus `D`'s duration equal `S`'s duration; when `D`'s
span contains `S`'s span, no segments result. -/
theorem C1_split_schedule_event_spec (S D : MEvent)
    (hov : time_overlaps S.start S.stop D.start D.stop = true) :
    (split_schedule_event S D =
       (if S.start < D.start then
          [{ S with stop := min S.stop D.start, split := some "before" }]
        else [])
       ++ (if S.stop > D.stop then
          [{ S with start := max S.start D.stop, split := some "after" }]
        else []))
    ∧ (S.start < D.start → D.stop < S.stop →
        split_schedule_event S D =
          [{ S with stop := D.start, split := some "before" },
           { S with start := D.stop, split := some "after" }]
        ∧ (D.start - S.start) + (S.stop - D.stop) + (D.stop - D.start) = S.stop - S.start)
    ∧ (D.start ≤ S.start → S.stop ≤ D.stop → split_schedule_event S D = []) := by
  have h12 : S.start < D.stop ∧ D.start < S.stop := by
    simpa [time_overlaps, decide_eq_true_eq] using hov
  obtain ⟨h1, h2⟩ := h12
  refine ⟨?_, ?_, ?_⟩
  · simp only [split_schedule_event]
    split_ifs <;> first | rfl | (exfalso; omega)
  · intro hb ha
    have hmin : min S.stop D.start = D.start := min_eq_right h2.le
    have hmax : max S.start D.stop = D.stop := max_eq_right h1.le
    constructor
    · simp [split_schedule_event, hmin, hmax, hb, ha]
    · ring
  · intro hb ha
    have hnb : ¬ S.start < D.start := not_lt.mpr hb
    have hna : ¬ S.stop > D.stop := not_lt.mpr ha
    simp [split_schedule_event, hnb, hna]

/-- Witness for C1: the strictly-inside case at the spec's concrete
events (09:00-10:30 split by 09:15-09:45). -/
theorem C1_split_schedule_event_spec_witness :
    split_schedule_event sampleSched sampleDirect =
      [{ sampleSched with stop := 555, split := some "before" },
       { sampleSched with start := 585, split := some "after" }] ∧
    ((555 : ℤ) - 540) + (630 - 585) + (585 - 555) = 630 - 540 :=
  (C1_split_schedule_event_spec sampleSched sampleDirect (by decide)).2.1
    (by decide) (by decide)

/-- If a segment overlaps no direct event in the list, folding the split
step over the list leaves the singleton segment untouched. -/
theorem foldl_process_no_overlap (s : MEvent) (l : List MEvent)
    (h : ∀ d ∈ l, time_overlaps s.start s.stop d.start d.stop = false) :
    l.foldl process_one_direct [s] = [s] := by
  induction l with
  | nil => rfl
  | cons d rest ih =>
      have hd := h d (List.mem_cons_self _ _)
      have hstep : process_one_direct [s] d = [s] := by
        simp [process_one_direct, hd]
      rw [List.foldl_cons, hstep]
      exact ih (fun d' hd' => h d' (List.mem_cons_of_mem _ hd'))

/-- C3: the spec's concrete merge scenario produces exactly the three
expected events in start order; in general an unsplit schedule event
survives merging (with only the `_source` tag added), every direct event
appears in the output with its span unchanged, and the merged list is
sorted by start time. -/
theorem C3_merge_events_spec :
    (merge_events [sampleSched] [sampleDirect] "2025-10-08" =
       [{ sampleSched with stop := 555, split := some "before", source := some "schedule" },
        { sampleDirect with source := some "direct" },
        { sampleSched with start := 585, split := some "after", source := some "schedule" }])
    ∧ (∀ sched direct date s, s ∈ sched →
        (∀ d ∈ direct, time_overlaps s.start s.stop d.start d.stop = false) →
        { s with source := some "schedule" } ∈ merge_events sched direct date)
    ∧ (∀ sched direct date d, d ∈ direct →
        { d with source := some "direct" } ∈ merge_events sched direct date)
    ∧ (∀ sched direct date, (merge_events sched direct date).Sorted startLE) := by
  refine ⟨by decide, ?_, ?_, ?_⟩
  · intro sched direct date s hs hno
    have hs' : ({ s with source := some "schedule" } : MEvent) ∈
        mark_event_source sched "schedule" := List.mem_map_of_mem _ hs
    have hmem : ({ s with source := some "schedule" } : MEvent) ∈
        process_overlaps (mark_event_source sched "schedule")
          (mark_event_source direct "direct") := by
      unfold process_overlaps
      by_cases hd : mark_event_source direct "direct" = []
      · simpa [hd] using hs'
      · simp only [if_neg hd]
        refine List.mem_flatMap.mpr ⟨_, hs', ?_⟩
        have hall : ∀ d' ∈ List.insertionSort startLE (mark_event_source direct "direct"),
            time_overlaps ({ s with source := some "schedule" } : MEvent).start
              ({ s with source := some "schedule" } : MEvent).stop
              d'.start d'.stop = false := by
          intro d' hd'
          have hd'' : d' ∈ mark_event_source direct "direct" :=
            (List.perm_insertionSort startLE _).subset hd'
          obtain ⟨d0, hd0, rfl⟩ := List.mem_map.mp hd''
          exact hno d0 hd0
        rw [foldl_process_no_overlap _ _ hall]
        exact List.mem_singleton_self _
    show _ ∈ List.insertionSort startLE
      (process_overlaps (mark_event_source sched "schedule")
        (mark_event_source direct "direct") ++ mark_event_source direct "direct")
    exact (List.perm_insertionSort startLE _).mem_iff.mpr (List.mem_append_left _ hmem)
  · intro sched direct date d hd
    have hmem : ({ d with source := some "direct" } : MEvent) ∈
        mark_event_source direct "direct" := List.mem_map_of_mem _ hd
    show _ ∈ List.insertionSort startLE
      (process_overlaps (mark_event_source sched "schedule")
        (mark_event_source direct "direct") ++ mark_event_source direct "direct")
    exact (List.perm_insertionSort startLE _).mem_iff.mpr (List.mem_append_right _ hmem)
  · intro sched direct date
    show List.Sorted startLE (List.insertionSort startLE
      (process_overlaps (mark_event_source sched "schedule")
        (mark_event_source direct "direct") ++ mark_event_source direct "direct"))
    exact List.sorted_insertionSort startLE _

/-- Witness for C3: the direct event of the concrete scenario appears,
tagged, in the merged output. -/
theorem C3_merge_events_spec_witness :
    ({ sampleDirect with source := some "direct" } : MEvent) ∈
      merge_events [sampleSched] [sampleDirect] "2025-10-08" :=
  C3_merge_events_spec.2.2.1 [sampleSched] [sampleDirect] "2025-10-08" sampleDirect
    (by decide)

/-! ## `schedule_stats.py`: effective durations -/

/-- Key comparison for `overlaps.sort(key=lambda x: x[0])`. -/
def spanLE (a b : ℤ × ℤ) : Prop := a.1 ≤ b.1

instance : DecidableRel spanLE := fun a b => Int.decLe a.1 b.1

instance : IsTotal (ℤ × ℤ) spanLE := ⟨fun a b => Int.le_total a.1 b.1⟩

instance : IsTrans (ℤ × ℤ) spanLE := ⟨fun _ _ _ h1 h2 => le_trans h1 h2⟩

/-- The sweep loop of `calculate_effective_duration` (lines 54-67): walk
the sorted occluder list accumulating visible minutes before each
occluder, then add the remainder after the last occluder. -/
def sweepTotal (evt_end : ℤ) : ℤ → List (ℤ × ℤ) → ℤ
  | current_pos, [] => if current_pos < evt_end then evt_end - current_pos else 0
  | current_pos, o :: rest =>
      (if current_pos < o.1 then min o.1 evt_end - current_pos else 0) +
        sweepTotal evt_end (max current_pos o.2) rest

/-- The occluder-collection loop of `calculate_effective_duration`
(lines 30-45): spans of non-overwriteable same-day events overlapping the
event.  Python's `other is event` identity test is modelled by structural
equality: the loop only runs when `event` is overwriteable, and any event
structurally equal to it is then also overwriteable and skipped by the
second disjunct anyway, so the two tests are observationally equal. -/
def occluderSpans (event : MEvent) (all_events : List MEvent) : List (ℤ × ℤ) :=
  all_events.filterMap (fun other =>
    if other = event ∨ other.overwriteable = true then none
    else if other.day.getD 0 ≠ event.day.getD 0 then none
    else if time_ranges_overlap event.start event.stop other.start other.stop
      then some (other.start, other.stop) else none)

/-- Model of `schedule_stats.calculate_effective_duration`: the effective duration
of an event in hours, subtracting time occluded by overlapping
non-overwriteable events on the same day. -/
def calculate_effective_duration (event : MEvent) (all_events : List MEvent) : ℚ :=
  let evt_start := event.start
  let evt_end := event.stop
  if event.overwriteable = false then ((evt_end - evt_start : ℤ) : ℚ) / 60
  else
    let overlaps := occluderSpans event all_events
    if overlaps = [] then ((evt_end - evt_start : ℤ) : ℚ) / 60
    else ((sweepTotal evt_end evt_start (List.insertionSort spanLE overlaps) : ℤ) : ℚ) / 60

/-- Spec-side predicate: minute `t` is covered by some non-overwriteable
event of the list (the "union of occluder spans" of the spec). -/
def coveredByOccluder (all_events : List MEvent) (t : ℤ) : Prop :=
  ∃ e ∈ all_events, e.overwriteable = false ∧ e.start ≤ t ∧ t < e.stop

instance (all_events : List MEvent) (t : ℤ) : Decidable (coveredByOccluder all_events t) := by
  unfold coveredByOccluder; exact List.decidableBEx _ _

/-- Spec-side quantity: the number of minutes of the event's span covered
by the union of the non-overwriteable events' spans. -/
def specOccludedMinutes (event : MEvent) (all_events : List MEvent) : ℕ :=
  ((Finset.Ico event.start event.stop).filter (fun t => coveredByOccluder all_events t)).card

/-- The minutes of `[current_pos, evt_end)` not covered by any span of the
list. -/
def uncoveredSet (evt_end current_pos : ℤ) (l : List (ℤ × ℤ)) : Finset ℤ :=
  (Finset.Ico current_pos evt_end).filter (fun t => ∀ o ∈ l, ¬ (o.1 ≤ t ∧ t < o.2))

/-- Sweep correctness: on a list of nonempty spans sorted by start, all
starting before `evt_end`, the sweep total counts exactly the minutes of
`[current_pos, evt_end)` left uncovered by the spans. -/
theorem sweepTotal_eq_card (evt_end : ℤ) (l : List (ℤ × ℤ)) :
    ∀ current_pos : ℤ, l.Pairwise spanLE → (∀ o ∈ l, o.1 < evt_end) →
      (∀ o ∈ l, o.1 < o.2) →
      sweepTotal evt_end current_pos l = ((uncoveredSet evt_end current_pos l).card : ℤ) := by
  induction l with
  | nil =>
      intro pos _ _ _
      simp only [sweepTotal, uncoveredSet, List.not_mem_nil, false_implies, implies_true,
        Finset.filter_true_of_mem, Int.card_Ico]
      split <;> omega
  | cons o rest ih =>
      intro pos hsort hlt hne
      have h1 : o.1 < evt_end := hlt o (List.mem_cons_self _ _)
      have h2 : o.1 < o.2 := hne o (List.mem_cons_self _ _)
      have hhead : ∀ b ∈ rest, o.1 ≤ b.1 :=
        fun b hb => (List.pairwise_cons.mp hsort).1 b hb
      have hset : uncoveredSet evt_end pos (o :: rest) =
          Finset.Ico pos o.1 ∪ uncoveredSet evt_end (max pos o.2) rest := by
        ext t
        simp only [uncoveredSet, Finset.mem_filter, Finset.mem_Ico, Finset.mem_union,
          List.forall_mem_cons]
        constructor
        · rintro ⟨⟨hpt, hte⟩, hho, hrest⟩
          by_cases hcase : t < o.1
          · exact Or.inl ⟨hpt, hcase⟩
          · exact Or.inr ⟨⟨by omega, hte⟩, hrest⟩
        · rintro (⟨hpt, hto⟩ | ⟨⟨hmt, hte⟩, hrest⟩)
          · refine ⟨⟨hpt, by omega⟩, by omega, ?_⟩
            intro b hb
            have := hhead b hb
            omega
          · exact ⟨⟨by omega, hte⟩, by omega, hrest⟩
      have hdisj : Disjoint (Finset.Ico pos o.1)
          (uncoveredSet evt_end (max pos o.2) rest) := by
        rw [Finset.disjoint_left]
        intro t ht ht'
        rw [Finset.mem_Ico] at ht
        rw [uncoveredSet, Finset.mem_filter, Finset.mem_Ico] at ht'
        omega
      have ihr := ih (max pos o.2) (List.Pairwise.of_cons hsort)
        (fun b hb => hlt b (List.mem_cons_of_mem _ hb))
        (fun b hb => hne b (List.mem_cons_of_mem _ hb))
      simp only [sweepTotal]
      rw [ihr, hset, Finset.card_union_of_disjoint hdisj, Int.card_Ico,
        min_eq_left h1.le]
      push_cast
      split <;> omega

/-- Characterization of the collected occluder spans when the event is
overwriteable and all events share its day. -/
theorem mem_occluderSpans (event : MEvent) (all_events : List MEvent)
    (hov : event.overwriteable = true)
    (hday : ∀ e ∈ all_events, e.day.getD 0 = event.day.getD 0) (p : ℤ × ℤ) :
    p ∈ occluderSpans event all_events ↔
      ∃ e ∈ all_events, e.overwriteable = false ∧
        time_ranges_overlap event.start event.stop e.start e.stop = true ∧
        p = (e.start, e.stop) := by
  rw [occluderSpans, List.mem_filterMap]
  constructor
  · rintro ⟨e, he, hfe⟩
    by_cases h1 : e = event ∨ e.overwriteable = true
    · simp [h1] at hfe
    · rw [if_neg h1] at hfe
      rw [if_neg (by simp [hday e he])] at hfe
      by_cases h3 : time_ranges_overlap event.start event.stop e.start e.stop = true
      · rw [if_pos h3] at hfe
        exact ⟨e, he, by simpa using (not_or.mp h1).2, h3, (Option.some_inj.mp hfe).symm⟩
      · rw [if_neg h3] at hfe
        exact absurd hfe (by simp)
  · rintro ⟨e, he, hnov, hovl, rfl⟩
    refine ⟨e, he, ?_⟩
    have h1 : ¬ (e = event ∨ e.overwriteable = true) := by
      rintro (rfl | h)
      · rw [hov] at hnov; exact Bool.noConfusion hnov
      · rw [h] at hnov; exact Bool.noConfusion hnov
    rw [if_neg h1, if_neg (by simp [hday e he]), if_pos hovl]

/-- Sample overwriteable block 09:00-12:00 for the spec's duration
conservation instance. -/
def statEvent : MEvent :=
  { day := some 0, date := none, start := 540, stop := 720, title := "Block",
    etype := "work", sub := none, overwriteable := true, source := none, split := none }

/-- Sample non-overwriteable occluder 09:30-10:00. -/
def statOcc1 : MEvent :=
  { day := some 0, date := none, start := 570, stop := 600, title := "Meeting",
    etype := "work", sub := none, overwriteable := false, source := none, split := none }

/-- Sample non-overwriteable occluder 11:00-11:15. -/
def statOcc2 : MEvent :=
  { day := some 0, date := none, start := 660, stop := 675, title := "Standup",
    etype := "work", sub := none, overwriteable := false, source := none, split := none }

/-- C2: for a same-day event list of well-formed events,
`calculate_effective_duration` returns the full span in hours for
non-overwriteable events, and otherwise the span minus the measure of the
intersection with the union of the non-overwriteable occluders' spans
(divided by 60), with no double subtraction; when no non-overwriteable
event overlaps the event it returns the full span; on the spec's instance
(09:00-12:00 against 09:30-10:00 and 11:00-11:15) it returns 2.25 h. -/
theorem C2_calculate_effective_duration_spec :
    (∀ (event : MEvent) (all_events : List MEvent), event ∈ all_events →
      (∀ e ∈ all_events, e.start < e.stop) →
      (∀ e ∈ all_events, e.day.getD 0 = event.day.getD 0) →
      (calculate_effective_duration event all_events =
        if event.overwriteable = true then
          ((event.stop - event.start - (specOccludedMinutes event all_events : ℤ) : ℤ) : ℚ) / 60
        else ((event.stop - event.start : ℤ) : ℚ) / 60)
      ∧ ((∀ e ∈ all_events, e.overwriteable = false →
            time_ranges_overlap event.start event.stop e.start e.stop = false) →
          calculate_effective_duration event all_events =
            ((event.stop - event.start : ℤ) : ℚ) / 60))
    ∧ calculate_effective_duration statEvent [statEvent, statOcc1, statOcc2] = 9 / 4 := by
  constructor
  · intro event all_events hmem hwf hday
    have hevwf : event.start < event.stop := hwf event hmem
    constructor
    · cases hov : event.overwriteable with
      | false => simp [calculate_effective_duration, hov]
      | true =>
          simp only [calculate_effective_duration, hov, Bool.true_eq_false, if_false,
            if_true]
          by_cases hempty : occluderSpans event all_events = []
          · have hocc0 : specOccludedMinutes event all_events = 0 := by
              rw [specOccludedMinutes, Finset.card_eq_zero, Finset.filter_eq_empty_iff]
              intro t ht
              rw [Finset.mem_Ico] at ht
              rintro ⟨e, he, hnov, hcov1, hcov2⟩
              have hovl : time_ranges_overlap event.start event.stop e.start e.stop = true := by
                simp only [time_ranges_overlap, gt_iff_lt, Bool.and_eq_true,
                  decide_eq_true_eq]
                omega
              have : (e.start, e.stop) ∈ occluderSpans event all_events :=
                (mem_occluderSpans event all_events hov hday _).mpr
                  ⟨e, he, hnov, hovl, rfl⟩
              rw [hempty] at this
              exact absurd this (List.not_mem_nil _)
            rw [if_pos hempty, hocc0]
            norm_num
          · rw [if_neg hempty]
            have hsorted : (List.insertionSort spanLE (occluderSpans event all_events)).Pairwise spanLE :=
              List.sorted_insertionSort spanLE _
            have hmemSort : ∀ p, p ∈ List.insertionSort spanLE (occluderSpans event all_events) ↔
                p ∈ occluderSpans event all_events := fun p =>
              (List.perm_insertionSort spanLE _).mem_iff
            have hlt : ∀ o ∈ List.insertionSort spanLE (occluderSpans event all_events),
                o.1 < event.stop := by
              intro o ho
              obtain ⟨e, _, _, hovl, rfl⟩ :=
                (mem_occluderSpans event all_events hov hday o).mp ((hmemSort o).mp ho)
              simp only [time_ranges_overlap, gt_iff_lt, Bool.and_eq_true,
                decide_eq_true_eq] at hovl
              exact hovl.2
            have hne : ∀ o ∈ List.insertionSort spanLE (occluderSpans event all_events),
                o.1 < o.2 := by
              intro o ho
              obtain ⟨e, he, _, _, rfl⟩ :=
                (mem_occluderSpans event all_events hov hday o).mp ((hmemSort o).mp ho)
              exact hwf e he
            rw [sweepTotal_eq_card event.stop _ event.start hsorted hlt hne]
            have hfilter : uncoveredSet event.stop event.start
                (List.insertionSort spanLE (occluderSpans event all_events)) =
                (Finset.Ico event.start event.stop).filter
                  (fun t => ¬ coveredByOccluder all_events t) := by
              rw [uncoveredSet]
              refine Finset.filter_congr ?_
              intro t ht
              rw [Finset.mem_Ico] at ht
              constructor
              · intro hall hcov
                obtain ⟨e, he, hnov, hc1, hc2⟩ := hcov
                have hovl : time_ranges_overlap event.start event.stop e.start e.stop = true := by
                  simp only [time_ranges_overlap, gt_iff_lt, Bool.and_eq_true,
                    decide_eq_true_eq]
                  omega
                have hmem2 : ((e.start, e.stop) : ℤ × ℤ) ∈
                    List.insertionSort spanLE (occluderSpans event all_events) :=
                  (hmemSort _).mpr ((mem_occluderSpans event all_events hov hday _).mpr
                    ⟨e, he, hnov, hovl, rfl⟩)
                exact hall _ hmem2 ⟨hc1, hc2⟩
              · intro hncov o ho hco
                obtain ⟨e, he, hnov, _, rfl⟩ :=
                  (mem_occluderSpans event all_events hov hday o).mp ((hmemSort o).mp ho)
                exact hncov ⟨e, he, hnov, hco.1, hco.2⟩
            rw [hfilter, specOccludedMinutes]
            have hsplit := Finset.filter_card_add_filter_neg_card_eq_card
              (s := Finset.Ico event.start event.stop)
              (p := fun t => coveredByOccluder all_events t)
            have hico : (Finset.Ico event.start event.stop).card = (event.stop - event.start).toNat :=
              Int.card_Ico _ _
            have key : ((((Finset.Ico event.start event.stop).filter
                (fun t => ¬ coveredByOccluder all_events t)).card : ℤ)) =
                event.stop - event.start - (((Finset.Ico event.start event.stop).filter
                  (fun t => coveredByOccluder all_events t)).card : ℤ) := by
              omega
            rw [← key]
    · intro hnone
      have hempty : occluderSpans event all_events = [] := by
        rw [occluderSpans, List.filterMap_eq_nil_iff]
        intro e he
        by_cases h1 : e = event ∨ e.overwriteable = true
        · rw [if_pos h1]
        · rw [if_neg h1]
          rw [if_neg (by simp [hday e he])]
          rw [if_neg (by simp [hnone e he (by simpa using (not_or.mp h1).2)])]
      cases hov : event.overwriteable with
      | false => simp [calculate_effective_duration, hov]
      | true => simp [calculate_effective_duration, hov, hempty]
  · have hv : sweepTotal statEvent.stop statEvent.start
        (List.insertionSort spanLE (occluderSpans statEvent [statEvent, statOcc1, statOcc2])) =
        135 := by decide
    show ((sweepTotal statEvent.stop statEvent.start
        (List.insertionSort spanLE
          (occluderSpans statEvent [statEvent, statOcc1, statOcc2])) : ℤ) : ℚ) / 60 = 9 / 4
    rw [hv]
    norm_num

/-- Witness for C2: the general statement applied to the spec's concrete
duration-conservation instance. -/
theorem C2_calculate_effective_duration_spec_witness :
    calculate_effective_duration statEvent [statEvent, statOcc1, statOcc2] =
      if statEvent.overwriteable = true then
        ((statEvent.stop - statEvent.start -
          (specOccludedMinutes statEvent [statEvent, statOcc1, statOcc2] : ℤ) : ℤ) : ℚ) / 60
      else ((statEvent.stop - statEvent.start : ℤ) : ℚ) / 60 :=
  (C2_calculate_effective_duration_spec.1 statEvent [statEvent, statOcc1, statOcc2]
    (by decide) (by decide) (by decide)).1

/-! ## `pdf_generator.py`: visual overlap segmentation -/

/-- The segment-collection loop of `process_overlap_segments`
(lines 153-171): same sweep as `calculate_effective_duration` but
emitting the visible `(start, end)` spans instead of summing them. -/
def sweepSegs (evt_end : ℤ) : ℤ → List (ℤ × ℤ) → List (ℤ × ℤ)
  | current_pos, [] => if current_pos < evt_end then [(current_pos, evt_end)] else []
  | current_pos, o :: rest =>
      (if current_pos < o.1 then [(current_pos, min o.1 evt_end)] else []) ++
        sweepSegs evt_end (max current_pos o.2) rest

/-- The segment spans sum to the sweep total. -/
theorem sum_sweepSegs (evt_end : ℤ) (l : List (ℤ × ℤ)) :
    ∀ current_pos : ℤ,
      ((sweepSegs evt_end current_pos l).map (fun s => s.2 - s.1)).sum =
        sweepTotal evt_end current_pos l := by
  induction l with
  | nil =>
      intro pos
      simp only [sweepSegs, sweepTotal]
      split <;> simp
  | cons o rest ih =>
      intro pos
      simp only [sweepSegs, sweepTotal, List.map_append, List.sum_append, ih]
      split <;> simp

/-- Every emitted segment starts at or after the cursor. -/
theorem sweepSegs_start_ge (evt_end : ℤ) (l : List (ℤ × ℤ)) :
    ∀ current_pos : ℤ, ∀ s ∈ sweepSegs evt_end current_pos l, current_pos ≤ s.1 := by
  induction l with
  | nil =>
      intro pos s hs
      rw [sweepSegs] at hs
      split at hs
      · rw [List.mem_singleton] at hs
        subst hs
        exact le_refl _
      · exact absurd hs (List.not_mem_nil _)
  | cons o rest ih =>
      intro pos s hs
      rw [sweepSegs, List.mem_append] at hs
      rcases hs with hs | hs
      · split at hs
        · rw [List.mem_singleton] at hs
          subst hs
          exact le_refl _
        · exact absurd hs (List.not_mem_nil _)
      · have := ih (max pos o.2) s hs
        omega

/-- Every emitted segment is nonempty (assuming all occluders start
before the event's end). -/
theorem sweepSegs_wf (evt_end : ℤ) (l : List (ℤ × ℤ)) :
    ∀ current_pos : ℤ, (∀ o ∈ l, o.1 < evt_end) →
      ∀ s ∈ sweepSegs evt_end current_pos l, s.1 < s.2 := by
  induction l with
  | nil =>
      intro pos _ s hs
      rw [sweepSegs] at hs
      split at hs
      · rw [List.mem_singleton] at hs
        subst hs
        assumption
      · exact absurd hs (List.not_mem_nil _)
  | cons o rest ih =>
      intro pos hlt s hs
      have h1 : o.1 < evt_end := hlt o (List.mem_cons_self _ _)
      rw [sweepSegs, List.mem_append] at hs
      rcases hs with hs | hs
      · split at hs
        · rw [List.mem_singleton] at hs
          subst hs
          simp only []
          omega
        · exact absurd hs (List.not_mem_nil _)
      · exact ih (max pos o.2) (fun b hb => hlt b (List.mem_cons_of_mem _ hb)) s hs

/-- The emitted segments are pairwise ordered and disjoint: each ends at
or before the next begins. -/
theorem sweepSegs_ordered (evt_end : ℤ) (l : List (ℤ × ℤ)) :
    ∀ current_pos : ℤ, l.Pairwise spanLE → (∀ o ∈ l, o.1 < o.2) →
      (sweepSegs evt_end current_pos l).Pairwise (fun a b => a.2 ≤ b.1) := by
  induction l with
  | nil =>
      intro pos _ _
      rw [sweepSegs]
      split
      · exact List.pairwise_singleton _ _
      · exact List.Pairwise.nil
  | cons o rest ih =>
      intro pos hsort hne
      have h2 : o.1 < o.2 := hne o (List.mem_cons_self _ _)
      rw [sweepSegs]
      refine List.pairwise_append.mpr ⟨?_, ?_, ?_⟩
      · split
        · exact List.pairwise_singleton _ _
        · exact List.Pairwise.nil
      · exact ih (max pos o.2) (List.Pairwise.of_cons hsort)
          (fun b hb => hne b (List.mem_cons_of_mem _ hb))
      · intro a ha b hb
        have hbge := sweepSegs_start_ge evt_end rest (max pos o.2) b hb
        split at ha
        · rw [List.mem_singleton] at ha
          subst ha
          simp only []
          have : min o.1 evt_end ≤ o.1 := min_le_left _ _
          omega
        · exact absurd ha (List.not_mem_nil _)

/-- The segments cover exactly the minutes of `[current_pos, evt_end)`
not covered by any occluder span. -/
theorem sweepSegs_cover (evt_end : ℤ) (l : List (ℤ × ℤ)) :
    ∀ current_pos t : ℤ, l.Pairwise spanLE → (∀ o ∈ l, o.1 < evt_end) →
      (∀ o ∈ l, o.1 < o.2) →
      ((∃ s ∈ sweepSegs evt_end current_pos l, s.1 ≤ t ∧ t < s.2) ↔
        (current_pos ≤ t ∧ t < evt_end ∧ ∀ o ∈ l, ¬ (o.1 ≤ t ∧ t < o.2))) := by
  induction l with
  | nil =>
      intro pos t _ _ _
      by_cases hpe : pos < evt_end
      · simp only [sweepSegs, if_pos hpe, List.mem_singleton, List.not_mem_nil,
          false_implies, implies_true, and_true]
        constructor
        · rintro ⟨s, rfl, h⟩
          exact h
        · intro h
          exact ⟨_, rfl, h⟩
      · simp only [sweepSegs, if_neg hpe, List.not_mem_nil, false_and, exists_const,
          false_iff, exists_prop]
        push_neg
        intro _ h
        omega
  | cons o rest ih =>
      intro pos t hsort hlt hne
      have h1 : o.1 < evt_end := hlt o (List.mem_cons_self _ _)
      have h2 : o.1 < o.2 := hne o (List.mem_cons_self _ _)
      have hhead : ∀ b ∈ rest, o.1 ≤ b.1 :=
        fun b hb => (List.pairwise_cons.mp hsort).1 b hb
      have ihr := ih (max pos o.2) t (List.Pairwise.of_cons hsort)
        (fun b hb => hlt b (List.mem_cons_of_mem _ hb))
        (fun b hb => hne b (List.mem_cons_of_mem _ hb))
      have hmin : min o.1 evt_end = o.1 := min_eq_left h1.le
      constructor
      · intro hcov
        obtain ⟨s, hs, hst⟩ := hcov
        rw [sweepSegs, List.mem_append] at hs
        rcases hs with hs | hs
        · split at hs
          · rw [List.mem_singleton] at hs
            subst hs
            rw [hmin] at hst
            refine ⟨hst.1, by omega, ?_⟩
            rw [List.forall_mem_cons]
            constructor
            · omega
            · intro b hb
              have := hhead b hb
              omega
          · exact absurd hs (List.not_mem_nil _)
        · obtain ⟨hm, hte, hrest⟩ := ihr.mp ⟨s, hs, hst⟩
          refine ⟨by omega, hte, ?_⟩
          rw [List.forall_mem_cons]
          exact ⟨by omega, hrest⟩
      · rintro ⟨hpt, hte, hall⟩
        rw [List.forall_mem_cons] at hall
        obtain ⟨hho, hrest⟩ := hall
        by_cases hcase : t < o.1
        · refine ⟨(pos, min o.1 evt_end), ?_, ?_⟩
          · rw [sweepSegs, List.mem_append]
            left
            rw [if_pos (by omega)]
            exact List.mem_singleton_self _
          · rw [hmin]
            exact ⟨hpt, hcase⟩
        · obtain ⟨s, hs, hst⟩ := ihr.mpr ⟨by omega, hte, hrest⟩
          refine ⟨s, ?_, hst⟩
          rw [sweepSegs, List.mem_append]
          exact Or.inr hs

/-- A result entry of `process_overlap_segments`: the incoming event
fields (possibly with `start`/`end` replaced by a segment span) plus the
added rendering tags.  Python keys `_isSegment`, `_zIndex`,
`_segmentIndex`, `_totalSegments`, `_originalStart`, `_originalEnd`. -/
structure PdfEntry where
  day : Option ℤ
  date : Option String
  start : ℤ
  stop : ℤ
  title : String
  etype : String
  sub : Option String
  overwriteable : Bool
  source : Option String
  split : Option String
  isSegment : Bool
  zIndex : ℤ
  segmentIndex : Option ℕ
  totalSegments : Option ℕ
  originalStart : Option ℤ
  originalEnd : Option ℤ
deriving DecidableEq

/-- An event rendered whole (no segmentation): `{**evt, '_isSegment':
False, '_zIndex': z}`. -/
def wholeEntry (e : MEvent) (z : ℤ) : PdfEntry :=
  { day := e.day, date := e.date, start := e.start, stop := e.stop, title := e.title,
    etype := e.etype, sub := e.sub, overwriteable := e.overwriteable,
    source := e.source, split := e.split, isSegment := false, zIndex := z,
    segmentIndex := none, totalSegments := none, originalStart := none,
    originalEnd := none }

/-- One tagged segment entry of `process_overlap_segments` (lines
174-185): the event's fields with the segment's span, its index and the
total segment count. -/
def segEntryMk (evt : MEvent) (total : ℕ) (p : ℕ × (ℤ × ℤ)) : PdfEntry :=
  { day := evt.day, date := evt.date, start := p.2.1, stop := p.2.2,
    title := evt.title, etype := evt.etype, sub := evt.sub,
    overwriteable := evt.overwriteable, source := evt.source, split := evt.split,
    isSegment := true, zIndex := 5, segmentIndex := some p.1,
    totalSegments := some total, originalStart := some evt.start,
    originalEnd := some evt.stop }

/-- The per-overwriteable-event body of `process_overlap_segments`
(lines 129-185): collect overlapping non-overwriteable spans, sort them,
emit the whole event when there are none, otherwise emit one tagged entry
per visible segment of the sweep. -/
def segmentsForEvent (evt : MEvent) (non_overwriteable : List MEvent) : List PdfEntry :=
  let evt_start := evt.start
  let evt_end := evt.stop
  let overlaps := non_overwriteable.filterMap (fun ne =>
    if time_ranges_overlap evt_start evt_end ne.start ne.stop
    then some (ne.start, ne.stop) else none)
  let sorted := List.insertionSort spanLE overlaps
  if sorted = [] then [wholeEntry evt 5]
  else
    let segments := sweepSegs evt_end evt_start sorted
    segments.enum.map (segEntryMk evt segments.length)

/-- Model of `pdf_generator.process_overlap_segments`: non-overwriteable events
render whole at z-index 10; each overwriteable event is segmented around
the overlapping non-overwriteable spans. -/
def process_overlap_segments (events : List MEvent) : List PdfEntry :=
  let non_overwriteable := events.filter (fun e => e.overwriteable = false)
  let overwriteable := events.filter (fun e => e.overwriteable = true)
  non_overwriteable.map (fun evt => wholeEntry evt 10) ++
    overwriteable.flatMap (fun evt => segmentsForEvent evt non_overwriteable)

/-- The entries `process_overlap_segments` emits for one overwriteable
event of a list. -/
def entriesFor (event : MEvent) (all_events : List MEvent) : List PdfEntry :=
  segmentsForEvent event (all_events.filter (fun e => e.overwriteable = false))

/-- When the event is overwriteable and all events share its day, the
overlap list collected by `process_overlap_segments` (from the
non-overwriteable events only) coincides with the occluder spans
collected by `calculate_effective_duration` (which additionally skips
the event itself and same-day filtering, both vacuous here). -/
theorem pdf_overlaps_eq (event : MEvent) (all_events : List MEvent)
    (hov : event.overwriteable = true)
    (hday : ∀ e ∈ all_events, e.day.getD 0 = event.day.getD 0) :
    (all_events.filter (fun e => e.overwriteable = false)).filterMap (fun ne =>
      if time_ranges_overlap event.start event.stop ne.start ne.stop
      then some (ne.start, ne.stop) else none) = occluderSpans event all_events := by
  induction all_events with
  | nil => rfl
  | cons e rest ih =>
      have hdr : ∀ x ∈ rest, x.day.getD 0 = event.day.getD 0 :=
        fun x hx => hday x (List.mem_cons_of_mem _ hx)
      have ihr := ih hdr
      cases hoe : e.overwriteable with
      | true =>
          have h1 : (e = event ∨ e.overwriteable = true) := Or.inr hoe
          simp only [occluderSpans, List.filterMap_cons, List.filter_cons, hoe,
            if_pos h1]
          rw [occluderSpans] at ihr
          simpa [hoe] using ihr
      | false =>
          have h1 : ¬ (e = event ∨ e.overwriteable = true) := by
            rintro (rfl | h)
            · rw [hov] at hoe; exact Bool.noConfusion hoe
            · rw [h] at hoe; exact Bool.noConfusion hoe
          have hd : ¬ e.day.getD 0 ≠ event.day.getD 0 := by
            simp [hday e (List.mem_cons_self _ _)]
          have hfilter : List.filter (fun e => e.overwriteable = false) (e :: rest) =
              e :: List.filter (fun e => e.overwriteable = false) rest :=
            List.filter_cons_of_pos (by simp [hoe])
          rw [occluderSpans, List.filterMap_cons, if_neg h1, if_neg hd, hfilter,
            List.filterMap_cons]
          rw [occluderSpans] at ihr
          rw [ihr]

/-- Extracting the spans back out of a list of tagged segment entries
recovers the segment list. -/
theorem map_span_segEntryMk (evt : MEvent) (n : ℕ) (l : List (ℤ × ℤ)) :
    ((l.enum.map (segEntryMk evt n)).map (fun p => (p.start, p.stop))) = l := by
  rw [List.map_map]
  have hc : ((fun p : PdfEntry => (p.start, p.stop)) ∘ segEntryMk evt n) = Prod.snd := by
    funext q
    rfl
  rw [hc, List.enum_map_snd]

/-- C8: for a same-day list of well-formed events and an overwriteable
event in it, the entries `process_overlap_segments` emits for that event
cover exactly its span minus the union of the overlapping
non-overwriteable spans, their lengths sum to 60 times
`calculate_effective_duration`, they are disjoint and ordered, segment
entries are tagged with their index and the total count, and they all
appear in the full `process_overlap_segments` output. -/
theorem C8_process_overlap_segments_spec (event : MEvent) (all_events : List MEvent)
    (hmem : event ∈ all_events)
    (hwf : ∀ e ∈ all_events, e.start < e.stop)
    (hday : ∀ e ∈ all_events, e.day.getD 0 = event.day.getD 0)
    (hov : event.overwriteable = true) :
    ((((entriesFor event all_events).map (fun p => p.stop - p.start)).sum : ℤ) : ℚ) =
        60 * calculate_effective_duration event all_events
    ∧ (∀ t : ℤ, (∃ p ∈ entriesFor event all_events, p.start ≤ t ∧ t < p.stop) ↔
        (event.start ≤ t ∧ t < event.stop ∧ ¬ coveredByOccluder all_events t))
    ∧ ((entriesFor event all_events).Pairwise (fun a b => a.stop ≤ b.start)
        ∧ ∀ p ∈ entriesFor event all_events, p.start < p.stop)
    ∧ (∀ i (h : i < (entriesFor event all_events).length),
        ((entriesFor event all_events).get ⟨i, h⟩).isSegment = true →
        ((entriesFor event all_events).get ⟨i, h⟩).segmentIndex = some i ∧
        ((entriesFor event all_events).get ⟨i, h⟩).totalSegments =
          some (entriesFor event all_events).length)
    ∧ (∀ p ∈ entriesFor event all_events, p ∈ process_overlap_segments all_events) := by
  have hevwf : event.start < event.stop := hwf event hmem
  have hoveq := pdf_overlaps_eq event all_events hov hday
  have hent : entriesFor event all_events =
      if List.insertionSort spanLE (occluderSpans event all_events) = []
      then [wholeEntry event 5]
      else (sweepSegs event.stop event.start
          (List.insertionSort spanLE (occluderSpans event all_events))).enum.map
        (segEntryMk event (sweepSegs event.stop event.start
          (List.insertionSort spanLE (occluderSpans event all_events))).length) := by
    simp only [entriesFor, segmentsForEvent, hoveq]
  have hmemSort : ∀ p, p ∈ List.insertionSort spanLE (occluderSpans event all_events) ↔
      p ∈ occluderSpans event all_events := fun p =>
    (List.perm_insertionSort spanLE _).mem_iff
  have hson : (List.insertionSort spanLE (occluderSpans event all_events)).Pairwise spanLE :=
    List.sorted_insertionSort spanLE _
  have hlt : ∀ o ∈ List.insertionSort spanLE (occluderSpans event all_events),
      o.1 < event.stop := by
    intro o ho
    obtain ⟨e, _, _, hovl, rfl⟩ :=
      (mem_occluderSpans event all_events hov hday o).mp ((hmemSort o).mp ho)
    simp only [time_ranges_overlap, gt_iff_lt, Bool.and_eq_true, decide_eq_true_eq] at hovl
    exact hovl.2
  have hne : ∀ o ∈ List.insertionSort spanLE (occluderSpans event all_events),
      o.1 < o.2 := by
    intro o ho
    obtain ⟨e, he, _, _, rfl⟩ :=
      (mem_occluderSpans event all_events hov hday o).mp ((hmemSort o).mp ho)
    exact hwf e he
  have htrans : ∀ t : ℤ, event.start ≤ t → t < event.stop →
      ((∀ o ∈ List.insertionSort spanLE (occluderSpans event all_events),
          ¬ (o.1 ≤ t ∧ t < o.2)) ↔ ¬ coveredByOccluder all_events t) := by
    intro t h1 h2
    constructor
    · intro hall hcov
      obtain ⟨e, he, hnov, hc1, hc2⟩ := hcov
      have hovl : time_ranges_overlap event.start event.stop e.start e.stop = true := by
        simp only [time_ranges_overlap, gt_iff_lt, Bool.and_eq_true, decide_eq_true_eq]
        omega
      exact hall _ ((hmemSort _).mpr ((mem_occluderSpans event all_events hov hday _).mpr
        ⟨e, he, hnov, hovl, rfl⟩)) ⟨hc1, hc2⟩
    · intro hncov o ho hco
      obtain ⟨e, he, hnov, _, rfl⟩ :=
        (mem_occluderSpans event all_events hov hday o).mp ((hmemSort o).mp ho)
      exact hncov ⟨e, he, hnov, hco.1, hco.2⟩
  have hmemproc : ∀ p ∈ entriesFor event all_events, p ∈ process_overlap_segments all_events := by
    intro p hp
    show p ∈ _ ++ _
    refine List.mem_append_right _ (List.mem_flatMap.mpr ⟨event, ?_, hp⟩)
    exact List.mem_filter.mpr ⟨hmem, by simp [hov]⟩
  by_cases hc : List.insertionSort spanLE (occluderSpans event all_events) = []
  · have hoccempty : occluderSpans event all_events = [] := by
      have hperm := List.perm_insertionSort spanLE (occluderSpans event all_events)
      rw [hc] at hperm
      exact (hperm.symm.eq_nil)
    have hced : calculate_effective_duration event all_events =
        ((event.stop - event.start : ℤ) : ℚ) / 60 := by
      simp [calculate_effective_duration, hov, hoccempty]
    have hnocov : ∀ t : ℤ, event.start ≤ t → t < event.stop →
        ¬ coveredByOccluder all_events t := by
      intro t h1 h2 hcov
      obtain ⟨e, he, hnov, hc1, hc2⟩ := hcov
      have hovl : time_ranges_overlap event.start event.stop e.start e.stop = true := by
        simp only [time_ranges_overlap, gt_iff_lt, Bool.and_eq_true, decide_eq_true_eq]
        omega
      have : (e.start, e.stop) ∈ occluderSpans event all_events :=
        (mem_occluderSpans event all_events hov hday _).mpr ⟨e, he, hnov, hovl, rfl⟩
      rw [hoccempty] at this
      exact absurd this (List.not_mem_nil _)
    refine ⟨?_, ?_, ⟨?_, ?_⟩, ?_, hmemproc⟩
    · rw [hent, if_pos hc, hced]
      simp only [List.map_cons, List.map_nil, List.sum_cons, List.sum_nil, wholeEntry]
      push_cast
      field_simp
    · intro t
      rw [hent, if_pos hc]
      constructor
      · rintro ⟨p, hp, h1, h2⟩
        rw [List.mem_singleton] at hp
        subst hp
        exact ⟨h1, h2, hnocov t h1 h2⟩
      · rintro ⟨h1, h2, _⟩
        exact ⟨wholeEntry event 5, List.mem_singleton_self _, h1, h2⟩
    · rw [hent, if_pos hc]
      exact List.pairwise_singleton _ _
    · rw [hent, if_pos hc]
      intro p hp
      rw [List.mem_singleton] at hp
      subst hp
      exact hevwf
    · rw [hent, if_pos hc]
      intro i h hseg
      have h0 : i = 0 := by
        have h1 := h
        simp only [List.length_singleton] at h1
        omega
      subst h0
      simp [wholeEntry] at hseg
  · have hoccne : occluderSpans event all_events ≠ [] := by
      intro hnil
      rw [hnil] at hc
      exact hc rfl
    have hced : calculate_effective_duration event all_events =
        ((sweepTotal event.stop event.start
          (List.insertionSort spanLE (occluderSpans event all_events)) : ℤ) : ℚ) / 60 := by
      simp [calculate_effective_duration, hov, hoccne]
    have hspan : (entriesFor event all_events).map (fun p => (p.start, p.stop)) =
        sweepSegs event.stop event.start
          (List.insertionSort spanLE (occluderSpans event all_events)) := by
      rw [hent, if_neg hc]
      exact map_span_segEntryMk _ _ _
    refine ⟨?_, ?_, ⟨?_, ?_⟩, ?_, hmemproc⟩
    · rw [hced]
      rw [show (fun p : PdfEntry => p.stop - p.start) =
        (fun s : ℤ × ℤ => s.2 - s.1) ∘ (fun p : PdfEntry => (p.start, p.stop)) from rfl]
      rw [← List.map_map, hspan, sum_sweepSegs]
      field_simp
    · intro t
      have hmm : (∃ p ∈ entriesFor event all_events, p.start ≤ t ∧ t < p.stop) ↔
          (∃ s ∈ sweepSegs event.stop event.start
            (List.insertionSort spanLE (occluderSpans event all_events)),
            s.1 ≤ t ∧ t < s.2) := by
        constructor
        · rintro ⟨p, hp, h⟩
          exact ⟨(p.start, p.stop), by rw [← hspan]; exact List.mem_map_of_mem _ hp, h⟩
        · rintro ⟨s, hs, h⟩
          rw [← hspan] at hs
          obtain ⟨p, hp, hps⟩ := List.mem_map.mp hs
          refine ⟨p, hp, ?_⟩
          rw [← hps] at h
          exact h
      rw [hmm, sweepSegs_cover event.stop _ event.start t hson hlt hne]
      constructor
      · rintro ⟨h1, h2, h3⟩
        exact ⟨h1, h2, (htrans t h1 h2).mp h3⟩
      · rintro ⟨h1, h2, h3⟩
        exact ⟨h1, h2, (htrans t h1 h2).mpr h3⟩
    · have hord := sweepSegs_ordered event.stop _ event.start hson hne
      rw [← hspan] at hord
      exact (List.pairwise_map.mp hord)
    · intro p hp
      have : (p.start, p.stop) ∈ sweepSegs event.stop event.start
          (List.insertionSort spanLE (occluderSpans event all_events)) := by
        rw [← hspan]
        exact List.mem_map_of_mem _ hp
      exact sweepSegs_wf event.stop _ event.start hlt _ this
    · rw [hent, if_neg hc]
      intro i h hseg
      constructor
      · simp [List.get_eq_getElem, List.getElem_map, List.enum, List.getElem_enumFrom,
          segEntryMk]
      · simp [List.get_eq_getElem, List.getElem_map, List.enum, List.getElem_enumFrom,
          segEntryMk]

/-- Witness for C8: the sum-of-segment-lengths identity at the concrete
duration-conservation instance. -/
theorem C8_process_overlap_segments_spec_witness :
    ((((entriesFor statEvent [statEvent, statOcc1, statOcc2]).map
        (fun p => p.stop - p.start)).sum : ℤ) : ℚ) =
      60 * calculate_effective_duration statEvent [statEvent, statOcc1, statOcc2] :=
  (C8_process_overlap_segments_spec statEvent [statEvent, statOcc1, statOcc2]
    (by decide) (by decide) (by decide) rfl).1

/-! ## `schedule_io.py`: template expansion -/

/-- A `day` value as stored in templates: a single integer or a list of
integers (`validators.validate_day_field` accepts exactly these two
shapes; other Python types are rejected by its final `else` branch and
never reach the code modelled here). -/
inductive DayValue where
  | int (d : ℤ)
  | list (l : List ℤ)
deriving DecidableEq

/-- One entry of a template's `timestamps` list; each key is read with
`.get`, hence optional. -/
structure TSField where
  day : Option DayValue
  start : Option String
  stop : Option String
deriving DecidableEq

/-- A raw schedule template event (the dict shape handled by
`validators.py` and `schedule_io.expand_events`): every key may be
absent.  Python key `end` is `stop`, `type` is `etype`. -/
structure TemplateEvent where
  title : Option String
  etype : Option String
  sub : Option String
  overwriteable : Option Bool
  timestamps : Option (List TSField)
  day : Option DayValue
  start : Option String
  stop : Option String
deriving DecidableEq

/-- An expanded event instance: single `day` value (Python `None` when a
timestamp lacked `day`), plus the `_original_idx` back-reference. -/
structure EventInstance where
  title : Option String
  etype : Option String
  sub : Option String
  overwriteable : Option Bool
  day : Option ℤ
  start : Option String
  stop : Option String
  origIdx : ℕ
deriving DecidableEq

/-- Model of `day_list = days if isinstance(days, list) else [days]` (line 38). -/
def dayListOf (d : Option DayValue) : List (Option ℤ) :=
  match d with
  | some (.list l) => l.map some
  | some (.int d) => [some d]
  | none => [none]

/-- The loop body of `expand_events` for one template entry at index
`original_idx`: the `timestamps` branch, the legacy day-list branch and
the legacy single-day branch. -/
def expandEntry (original_idx : ℕ) (event : TemplateEvent) : List EventInstance :=
  match event.timestamps with
  | some tss =>
      tss.flatMap (fun ts =>
        (dayListOf ts.day).map (fun d =>
          { title := event.title, etype := event.etype, sub := event.sub,
            overwriteable := event.overwriteable, day := d, start := ts.start,
            stop := ts.stop, origIdx := original_idx }))
  | none =>
      match event.day with
      | some (.list l) =>
          l.map (fun d =>
            { title := event.title, etype := event.etype, sub := event.sub,
              overwriteable := event.overwriteable, day := some d,
              start := event.start, stop := event.stop, origIdx := original_idx })
      | some (.int d) =>
          [{ title := event.title, etype := event.etype, sub := event.sub,
             overwriteable := event.overwriteable, day := some d,
             start := event.start, stop := event.stop, origIdx := original_idx }]
      | none => []

/-- The enumerate-loop of `schedule_io.expand_events`, carrying the
running index. -/
def expandFrom (original_idx : ℕ) : List TemplateEvent → List EventInstance
  | [] => []
  | e :: rest => expandEntry original_idx e ++ expandFrom (original_idx + 1) rest

/-- Model of `schedule_io.expand_events`. -/
def expand_events (events : List TemplateEvent) : List EventInstance :=
  expandFrom 0 events

/-- Every instance emitted for one entry carries that entry's index. -/
theorem origIdx_expandEntry (k : ℕ) (e : TemplateEvent) :
    ∀ inst ∈ expandEntry k e, inst.origIdx = k := by
  intro inst hinst
  cases hts : e.timestamps with
  | some tss =>
      simp only [expandEntry, hts, List.mem_flatMap, List.mem_map] at hinst
      obtain ⟨ts, _, d, _, rfl⟩ := hinst
      rfl
  | none =>
      cases hd : e.day with
      | none => simp [expandEntry, hts, hd] at hinst
      | some dv =>
          cases dv with
          | int d =>
              simp only [expandEntry, hts, hd, List.mem_singleton] at hinst
              subst hinst
              rfl
          | list l =>
              simp only [expandEntry, hts, hd, List.mem_map] at hinst
              obtain ⟨d, _, rfl⟩ := hinst
              rfl

/-- The enumerate-loop unfolds to a flat map over the indexed list. -/
theorem expandFrom_eq (l : List TemplateEvent) :
    ∀ n, expandFrom n l = (l.enumFrom n).flatMap (fun p => expandEntry p.1 p.2) := by
  induction l with
  | nil => intro n; rfl
  | cons e rest ih =>
      intro n
      simp only [expandFrom, List.enumFrom_cons, List.flatMap_cons, ih]

/-- Membership in the running expansion pins down the origin entry. -/
theorem mem_expandFrom (l : List TemplateEvent) :
    ∀ (n : ℕ) (inst : EventInstance), inst ∈ expandFrom n l →
      ∃ (j : ℕ) (hj : j < l.length), inst.origIdx = n + j ∧
        inst ∈ expandEntry (n + j) (l.get ⟨j, hj⟩) := by
  induction l with
  | nil => intro n inst hinst; exact absurd hinst (List.not_mem_nil _)
  | cons e rest ih =>
      intro n inst hinst
      rw [expandFrom, List.mem_append] at hinst
      rcases hinst with hinst | hinst
      · refine ⟨0, by simp, ?_, ?_⟩
        · rw [Nat.add_zero]
          exact origIdx_expandEntry n e inst hinst
        · simpa using hinst
      · obtain ⟨j, hj, hidx, hmem⟩ := ih (n + 1) inst hinst
        refine ⟨j + 1, by simpa using hj, by omega, ?_⟩
        have : n + 1 + j = n + (j + 1) := by omega
        rw [← this]
        simpa using hmem

/-- C4: a legacy entry with a day-list of length N expands to exactly N
instances whose `day` values are the list's entries in order (distinct
when the list has no duplicates) and whose other fields copy the entry;
a timestamped entry expands to `sum(N_t)` instances each copying the
base fields plus its timestamp's day/start/end; every instance carries
`_original_idx` pointing to its entry; and the output is the
in-order flat expansion of the enumerated template list. -/
theorem C4_expand_events_spec :
    (∀ events : List TemplateEvent,
        expand_events events = (events.enum).flatMap (fun p => expandEntry p.1 p.2))
    ∧ (∀ (idx : ℕ) (e : TemplateEvent) (ds : List ℤ), e.timestamps = none →
        e.day = some (.list ds) →
        (expandEntry idx e).length = ds.length
        ∧ (expandEntry idx e).map (fun inst => inst.day) = ds.map some
        ∧ (ds.Nodup → ((expandEntry idx e).map (fun inst => inst.day)).Nodup)
        ∧ ∀ inst ∈ expandEntry idx e, inst.title = e.title ∧ inst.etype = e.etype
            ∧ inst.sub = e.sub ∧ inst.overwriteable = e.overwriteable
            ∧ inst.start = e.start ∧ inst.stop = e.stop ∧ inst.origIdx = idx)
    ∧ (∀ (idx : ℕ) (e : TemplateEvent) (tss : List TSField), e.timestamps = some tss →
        (expandEntry idx e).length = (tss.map (fun ts => (dayListOf ts.day).length)).sum
        ∧ ∀ inst ∈ expandEntry idx e, inst.title = e.title ∧ inst.etype = e.etype
            ∧ inst.sub = e.sub ∧ inst.overwriteable = e.overwriteable ∧ inst.origIdx = idx
            ∧ ∃ ts ∈ tss, inst.day ∈ dayListOf ts.day ∧ inst.start = ts.start
                ∧ inst.stop = ts.stop)
    ∧ (∀ (events : List TemplateEvent) (inst : EventInstance), inst ∈ expand_events events →
        ∃ h : inst.origIdx < events.length,
          inst ∈ expandEntry inst.origIdx (events.get ⟨inst.origIdx, h⟩)) := by
  refine ⟨?_, ?_, ?_, ?_⟩
  · intro events
    rw [expand_events, expandFrom_eq, List.enum]
  · intro idx e ds hts hd
    have hexp : expandEntry idx e = ds.map (fun d =>
        { title := e.title, etype := e.etype, sub := e.sub,
          overwriteable := e.overwriteable, day := some d,
          start := e.start, stop := e.stop, origIdx := idx }) := by
      simp only [expandEntry, hts, hd]
    have hdays : (expandEntry idx e).map (fun inst => inst.day) = ds.map some := by
      rw [hexp, List.map_map]
      rfl
    refine ⟨by rw [hexp, List.length_map], hdays, ?_, ?_⟩
    · intro hnodup
      rw [hdays]
      exact hnodup.map (fun a b => by simp)
    · intro inst hinst
      rw [hexp, List.mem_map] at hinst
      obtain ⟨d, _, rfl⟩ := hinst
      simp
  · intro idx e tss hts
    have hexp : expandEntry idx e = tss.flatMap (fun ts =>
        (dayListOf ts.day).map (fun d =>
          { title := e.title, etype := e.etype, sub := e.sub,
            overwriteable := e.overwriteable, day := d, start := ts.start,
            stop := ts.stop, origIdx := idx })) := by
      simp only [expandEntry, hts]
    constructor
    · rw [hexp, List.flatMap_def, List.length_flatten, List.map_map]
      refine congrArg List.sum (List.map_congr_left ?_)
      intro ts _
      simp [Function.comp]
    · intro inst hinst
      rw [hexp, List.mem_flatMap] at hinst
      obtain ⟨ts, hts', hinst⟩ := hinst
      rw [List.mem_map] at hinst
      obtain ⟨d, hd, rfl⟩ := hinst
      exact ⟨rfl, rfl, rfl, rfl, rfl, ts, hts', hd, rfl, rfl⟩
  · intro events inst hinst
    obtain ⟨j, hj, hidx, hmem⟩ := mem_expandFrom events 0 inst hinst
    rw [Nat.zero_add] at hidx
    subst hidx
    exact ⟨hj, by simpa using hmem⟩

/-- Sample legacy template entry with a three-day list. -/
def sampleTemplate : TemplateEvent :=
  { title := some "Gym", etype := some "exercise", sub := none,
    overwriteable := none, timestamps := none, day := some (.list [0, 2, 4]),
    start := some "07:00", stop := some "08:00" }

/-- Witness for C4: the legacy three-day entry expands to exactly three
instances. -/
theorem C4_expand_events_spec_witness :
    (expandEntry 0 sampleTemplate).length = ([0, 2, 4] : List ℤ).length :=
  (C4_expand_events_spec.2.1 0 sampleTemplate [0, 2, 4] rfl rfl).1

/-! ## `schedule_io.py` color migration and `color_palette.py` -/

/-- The `name` fields of `color_palette.PREDEFINED_COLORS`, in order.
(The palette entries' Tailwind-class and hex fields are never read by the
logic modelled here; only the names are assigned and validated.)
`VALID_COLOR_NAMES` is the same list (the dict keys in insertion
order). -/
def PREDEFINED_COLOR_NAMES : List String :=
  ["yellow-orange", "yellow", "orange", "red", "blue", "purple", "teal",
   "light-purple", "light-blue", "green", "black", "muted-gray", "brown",
   "light-pink", "kiwi", "rose"]

/-- Model of `color_palette.VALID_COLOR_NAMES`. -/
def VALID_COLOR_NAMES : List String := PREDEFINED_COLOR_NAMES

/-- Model of `schedule_io._generate_default_color_mappings`: one palette name per
distinct event type (default `"other"`), alphabetical, round-robin over
the 16-entry palette.  A Python dict built by inserting keys in order is
modelled as the association list in that order. -/
def generate_default_color_mappings (events : List TemplateEvent) : List (String × String) :=
  let unique_types := (events.map (fun e => e.etype.getD "other")).dedup
  let sorted_types := List.insertionSort (fun a b : String => a ≤ b) unique_types
  sorted_types.enum.map (fun p =>
    (p.2, PREDEFINED_COLOR_NAMES.getD (p.1 % PREDEFINED_COLOR_NAMES.length) ""))

/-- A schedule file's content: `name`, raw `events`, optional
`color_mappings`. -/
structure ScheduleData where
  name : String
  events : List TemplateEvent
  color_mappings : Option (List (String × String))
deriving DecidableEq

/-- The result of `load_schedule` (events expanded). -/
structure LoadedSchedule where
  name : String
  events : List EventInstance
  color_mappings : Option (List (String × String))
deriving DecidableEq

/-- The auto-migration step of `schedule_io.load_schedule` (lines 81-84):
generate and attach `color_mappings` when missing.  (The source guards on
`'events' in data`, which always holds for the validated schedule shape
modelled by `ScheduleData`.) -/
def migrate_color_mappings (data : ScheduleData) : ScheduleData :=
  match data.color_mappings with
  | none => { data with color_mappings := some (generate_default_color_mappings data.events) }
  | some _ => data

/-- Pure content of `schedule_io.load_schedule`: first component is the
returned structure (events expanded), second is what is persisted back to
the file (the migration is saved before expansion, so the file keeps the
raw events). -/
def load_schedule (data : ScheduleData) : LoadedSchedule × ScheduleData :=
  let migrated := migrate_color_mappings data
  ({ name := migrated.name, events := expand_events migrated.events,
     color_mappings := migrated.color_mappings }, migrated)

/-- The keys of the generated mapping are the alphabetically sorted
distinct types. -/
theorem keys_generate_default_color_mappings (events : List TemplateEvent) :
    (generate_default_color_mappings events).map Prod.fst =
      List.insertionSort (fun a b : String => a ≤ b)
        ((events.map (fun e => e.etype.getD "other")).dedup) := by
  rw [generate_default_color_mappings, List.map_map]
  have hc : (Prod.fst ∘ fun p : ℕ × String =>
      (p.2, PREDEFINED_COLOR_NAMES.getD (p.1 % PREDEFINED_COLOR_NAMES.length) "")) =
      Prod.snd := by
    funext q
    rfl
  rw [hc, List.enum_map_snd]

/-- C9: the color-mapping auto-migration assigns, to a schedule lacking
mappings, the mapping whose keys are the alphabetically sorted distinct
event types (default `"other"`), each paired with the palette name at its
position mod 16; the assigned names are valid palette names; and loading
the migrated file a second time leaves the mappings unchanged
(idempotence), so both loads yield identical `color_mappings`. -/
theorem C9_color_migration_spec :
    (∀ data : ScheduleData, data.color_mappings = none →
        (load_schedule data).1.color_mappings =
          some (generate_default_color_mappings data.events))
    ∧ (∀ data : ScheduleData,
        (load_schedule (load_schedule data).2).1.color_mappings =
          (load_schedule data).1.color_mappings)
    ∧ PREDEFINED_COLOR_NAMES.length = 16
    ∧ (∀ events : List TemplateEvent,
        ((generate_default_color_mappings events).map Prod.fst).Sorted
            (fun a b : String => a ≤ b)
        ∧ ((generate_default_color_mappings events).map Prod.fst).Nodup
        ∧ (∀ p ∈ generate_default_color_mappings events, p.2 ∈ VALID_COLOR_NAMES))
    ∧ (∀ (events : List TemplateEvent) (i : ℕ)
        (h : i < (generate_default_color_mappings events).length),
        ((generate_default_color_mappings events).get ⟨i, h⟩).2 =
          PREDEFINED_COLOR_NAMES.getD (i % 16) "") := by
  refine ⟨?_, ?_, rfl, ?_, ?_⟩
  · intro data h
    simp [load_schedule, migrate_color_mappings, h]
  · intro data
    cases h : data.color_mappings with
    | none => simp [load_schedule, migrate_color_mappings, h]
    | some m => simp [load_schedule, migrate_color_mappings, h]
  · intro events
    refine ⟨?_, ?_, ?_⟩
    · rw [keys_generate_default_color_mappings]
      exact List.sorted_insertionSort _ _
    · rw [keys_generate_default_color_mappings]
      exact ((List.perm_insertionSort _ _).nodup_iff).mpr (List.nodup_dedup _)
    · intro p hp
      rw [generate_default_color_mappings, List.mem_map] at hp
      obtain ⟨q, _, rfl⟩ := hp
      have hlt : q.1 % PREDEFINED_COLOR_NAMES.length < PREDEFINED_COLOR_NAMES.length :=
        Nat.mod_lt _ (by simp [PREDEFINED_COLOR_NAMES])
      show PREDEFINED_COLOR_NAMES.getD _ "" ∈ VALID_COLOR_NAMES
      rw [List.getD_eq_getElem?_getD, List.getElem?_eq_getElem hlt]
      exact List.getElem_mem _
  · intro events i h
    simp only [generate_default_color_mappings, List.get_eq_getElem, List.getElem_map,
      List.enum, List.getElem_enumFrom, Nat.zero_add] at h ⊢
    rfl

/-- Sample schedule file content lacking `color_mappings`. -/
def sampleScheduleData : ScheduleData :=
  { name := "fall", events := [sampleTemplate], color_mappings := none }

/-- Witness for C9: the first load of a mapping-less schedule attaches
the generated default mappings. -/
theorem C9_color_migration_spec_witness :
    (load_schedule sampleScheduleData).1.color_mappings =
      some (generate_default_color_mappings sampleScheduleData.events) :=
  C9_color_migration_spec.1 sampleScheduleData rfl

/-! ## `calendar_io.py`: calendar entries -/

/-- A parsed `YYYY-MM-DD` date.  Python compares `datetime` objects;
on calendar-valid dates that order coincides with the lexicographic
(year, month, day) order used here. -/
structure YMDDate where
  year : ℕ
  month : ℕ
  day : ℕ
deriving DecidableEq

/-- Model of `datetime` comparison `a <= b` as lexicographic order on
(year, month, day). -/
def dateLE (a b : YMDDate) : Bool :=
  Nat.blt a.year b.year ||
    (Nat.beq a.year b.year && (Nat.blt a.month b.month ||
      (Nat.beq a.month b.month && Nat.ble a.day b.day)))

theorem dateLE_iff (a b : YMDDate) :
    dateLE a b = true ↔ (a.year < b.year ∨ (a.year = b.year ∧
      (a.month < b.month ∨ (a.month = b.month ∧ a.day ≤ b.day)))) := by
  simp [dateLE, Nat.blt_eq, Nat.beq_eq, Nat.ble_eq]

theorem dateLE_refl (a : YMDDate) : dateLE a a = true := by
  rw [dateLE_iff]
  omega

theorem dateLE_trans {a b c : YMDDate} (h1 : dateLE a b = true)
    (h2 : dateLE b c = true) : dateLE a c = true := by
  rw [dateLE_iff] at h1 h2 ⊢
  omega

/-- One entry of `calendar.json`'s `entries` list. -/
structure CalendarEntry where
  start_date : YMDDate
  end_date : YMDDate
  schedule_filename : String
deriving DecidableEq

/-- The distinguishable failure modes of `validate_calendar_entry` /
`update_calendar_entry` (each variant stands for the corresponding
message string raised as `ValueError`/`IndexError`):
`invalidRange` = "Start date must be before or equal to end date.",
`scheduleNotFound f` = "Schedule file f not found.",
`overlap s e` = "Date range overlaps with existing entry (s to e).",
`indexOutOfRange i` = "Entry index i out of range.". -/
inductive EntryError where
  | invalidRange
  | scheduleNotFound (filename : String)
  | overlap (conflictStart conflictEnd : YMDDate)
  | indexOutOfRange (index : ℕ)
deriving DecidableEq

/-- The overlap-scan loop of `validate_calendar_entry` (lines 182-194):
report the first existing entry (skipping `exclude_index`) whose
inclusive date range intersects the candidate range. -/
def find_overlap_conflict (start_date end_date : YMDDate) (exclude_index : Option ℕ) :
    ℕ → List CalendarEntry → Option EntryError
  | _, [] => none
  | i, entry :: rest =>
      if exclude_index = some i then
        find_overlap_conflict start_date end_date exclude_index (i + 1) rest
      else if dateLE start_date entry.end_date && dateLE entry.start_date end_date then
        some (.overlap entry.start_date entry.end_date)
      else find_overlap_conflict start_date end_date exclude_index (i + 1) rest

/-- Model of `calendar_io.validate_calendar_entry` on parsed dates.  The
`os.path.exists` check on the schedule file is modelled by membership in
the given list of existing schedule filenames; the string-format check
(strptime) precedes parsing and is outside this model's inputs. -/
def validate_calendar_entry (schedule_files : List String) (entries : List CalendarEntry)
    (start_date end_date : YMDDate) (schedule_filename : String)
    (exclude_index : Option ℕ) : Option EntryError :=
  if ! dateLE start_date end_date then some .invalidRange
  else if schedule_filename ∉ schedule_files then some (.scheduleNotFound schedule_filename)
  else find_overlap_conflict start_date end_date exclude_index 0 entries

/-- The calendar configuration (`direct_events` omitted: not touched by
the entry-management claims). -/
structure CalendarConfig where
  entries : List CalendarEntry
deriving DecidableEq

/-- Model of `calendar_io.add_calendar_entry` as a state transformer: on
validation failure the exception propagates and the stored configuration
is returned unchanged; on success the entry is appended and its index
returned. -/
def add_calendar_entry (schedule_files : List String) (config : CalendarConfig)
    (start_date end_date : YMDDate) (schedule_filename : String) :
    CalendarConfig × Except EntryError ℕ :=
  match validate_calendar_entry schedule_files config.entries start_date end_date
      schedule_filename none with
  | some err => (config, .error err)
  | none =>
      let entries' := config.entries ++
        [{ start_date := start_date, end_date := end_date,
           schedule_filename := schedule_filename }]
      ({ entries := entries' }, .ok (entries'.length - 1))

/-- Model of `calendar_io.update_calendar_entry` as a state transformer (bounds
check first, then validation excluding the updated index). -/
def update_calendar_entry (schedule_files : List String) (config : CalendarConfig)
    (index : ℕ) (start_date end_date : YMDDate) (schedule_filename : String) :
    CalendarConfig × Except EntryError Unit :=
  if index ≥ config.entries.length then (config, .error (.indexOutOfRange index))
  else
    match validate_calendar_entry schedule_files config.entries start_date end_date
        schedule_filename (some index) with
    | some err => (config, .error err)
    | none =>
        ({ entries := config.entries.set index
            { start_date := start_date, end_date := end_date,
              schedule_filename := schedule_filename } }, .ok ())

/-- If some entry conflicts, the scan (with no exclusion) reports a
conflicting entry. -/
theorem find_overlap_some (start_date end_date : YMDDate) (l : List CalendarEntry) :
    ∀ i : ℕ,
      (∃ ent ∈ l, dateLE start_date ent.end_date = true ∧
        dateLE ent.start_date end_date = true) →
      ∃ ent ∈ l, dateLE start_date ent.end_date = true ∧
        dateLE ent.start_date end_date = true ∧
        find_overlap_conflict start_date end_date none i l =
          some (.overlap ent.start_date ent.end_date) := by
  induction l with
  | nil =>
      intro i h
      obtain ⟨ent, hent, _⟩ := h
      exact absurd hent (List.not_mem_nil _)
  | cons entry rest ih =>
      intro i h
      by_cases hc : (dateLE start_date entry.end_date &&
          dateLE entry.start_date end_date) = true
      · rw [Bool.and_eq_true] at hc
        refine ⟨entry, List.mem_cons_self _ _, hc.1, hc.2, ?_⟩
        rw [find_overlap_conflict, if_neg (by simp), if_pos (by
          rw [Bool.and_eq_true]; exact hc)]
      · obtain ⟨ent, hent, h1, h2⟩ := h
        rcases List.mem_cons.mp hent with rfl | hent'
        · exact absurd (by rw [Bool.and_eq_true]; exact ⟨h1, h2⟩) hc
        · obtain ⟨ent2, hent2, g1, g2, geq⟩ := ih (i + 1) ⟨ent, hent', h1, h2⟩
          refine ⟨ent2, List.mem_cons_of_mem _ hent2, g1, g2, ?_⟩
          rw [find_overlap_conflict, if_neg (by simp), if_neg hc]
          exact geq

/-- Sample calendar configuration holding the entry 2025-01-15..2025-01-25. -/
def sampleCalendarConfig : CalendarConfig :=
  { entries := [{ start_date := { year := 2025, month := 1, day := 15 },
                  end_date := { year := 2025, month := 1, day := 25 },
                  schedule_filename := "work.json" }] }

/-- C5: adding a calendar entry whose range overlaps an existing entry
(or whose start is after its end) fails with an error identifying the
conflicting range and leaves the stored entries unchanged; the spec's
concrete instance (2025-01-10..2025-01-20 against an existing
2025-01-15..2025-01-25) fails naming that range; valid entries are
appended; updates reject the same way. -/
theorem C5_calendar_entry_overlap_spec :
    (∀ files config start_date end_date fn, dateLE start_date end_date = false →
        add_calendar_entry files config start_date end_date fn =
          (config, .error .invalidRange))
    ∧ (∀ files config start_date end_date fn, dateLE start_date end_date = true →
        fn ∈ files →
        (∃ ent ∈ config.entries, dateLE start_date ent.end_date = true ∧
          dateLE ent.start_date end_date = true) →
        ∃ ent ∈ config.entries, dateLE start_date ent.end_date = true ∧
          dateLE ent.start_date end_date = true ∧
          add_calendar_entry files config start_date end_date fn =
            (config, .error (.overlap ent.start_date ent.end_date)))
    ∧ add_calendar_entry ["work.json"] sampleCalendarConfig
        { year := 2025, month := 1, day := 10 } { year := 2025, month := 1, day := 20 }
        "work.json" =
      (sampleCalendarConfig, .error (.overlap { year := 2025, month := 1, day := 15 }
        { year := 2025, month := 1, day := 25 }))
    ∧ (∀ files config start_date end_date fn,
        validate_calendar_entry files config.entries start_date end_date fn none = none →
        add_calendar_entry files config start_date end_date fn =
          ({ entries := config.entries ++
              [{ start_date := start_date, end_date := end_date,
                 schedule_filename := fn }] }, .ok config.entries.length))
    ∧ (∀ files config index start_date end_date fn err, index < config.entries.length →
        validate_calendar_entry files config.entries start_date end_date fn
          (some index) = some err →
        update_calendar_entry files config index start_date end_date fn =
          (config, .error err)) := by
  refine ⟨?_, ?_, by rfl, ?_, ?_⟩
  · intro files config s e fn h
    rw [add_calendar_entry, validate_calendar_entry, if_pos (by rw [h]; rfl)]
  · intro files config s e fn hse hfn hex
    obtain ⟨ent, hent, h1, h2, heq⟩ := find_overlap_some s e config.entries 0 hex
    refine ⟨ent, hent, h1, h2, ?_⟩
    rw [add_calendar_entry, validate_calendar_entry, if_neg (by rw [hse]; simp),
      if_neg (by simp [hfn]), heq]
  · intro files config s e fn hval
    rw [add_calendar_entry, hval]
    simp
  · intro files config index s e fn err hidx hval
    rw [update_calendar_entry, if_neg (by omega), hval]

/-- Witness for C5: the no-overlap acceptance branch on an empty
calendar. -/
theorem C5_calendar_entry_overlap_spec_witness :
    add_calendar_entry ["work.json"] { entries := [] }
      { year := 2025, month := 2, day := 1 } { year := 2025, month := 2, day := 10 }
      "work.json" =
    ({ entries := [{ start_date := { year := 2025, month := 2, day := 1 },
                     end_date := { year := 2025, month := 2, day := 10 },
                     schedule_filename := "work.json" }] }, .ok 0) :=
  C5_calendar_entry_overlap_spec.2.2.2.1 ["work.json"] { entries := [] }
    { year := 2025, month := 2, day := 1 } { year := 2025, month := 2, day := 10 }
    "work.json" rfl

/-- C10: calendar-entry overlap checking is inclusive at the boundaries
(`start <= entry_end and entry_start <= end` on whole dates), so ranges
that merely touch are rejected as overlapping, whereas the event-time
overlap rule `time_overlaps` is half-open and treats touching ranges as
non-overlapping. -/
theorem C10_inclusive_date_overlap_spec :
    (∀ files (ent : CalendarEntry) start_date end_date fn,
        dateLE start_date end_date = true → fn ∈ files →
        (validate_calendar_entry files [ent] start_date end_date fn none =
            some (.overlap ent.start_date ent.end_date) ↔
          (dateLE start_date ent.end_date = true ∧
            dateLE ent.start_date end_date = true)))
    ∧ (∀ files (ent : CalendarEntry) start_date fn,
        dateLE start_date ent.start_date = true →
        dateLE ent.start_date ent.end_date = true → fn ∈ files →
        validate_calendar_entry files [ent] start_date ent.start_date fn none =
          some (.overlap ent.start_date ent.end_date))
    ∧ (∀ a b c : ℤ, time_overlaps a b b c = false)
    ∧ (∀ s1 e1 s2 e2 : ℤ, time_overlaps s1 e1 s2 e2 = true ↔ (s1 < e2 ∧ s2 < e1)) := by
  refine ⟨?_, ?_, ?_, ?_⟩
  · intro files ent s e fn hse hfn
    rw [validate_calendar_entry, if_neg (by rw [hse]; simp), if_neg (by simp [hfn])]
    constructor
    · intro hres
      by_cases hc : (dateLE s ent.end_date && dateLE ent.start_date e) = true
      · exact Bool.and_eq_true .. |>.mp hc
      · rw [find_overlap_conflict, if_neg (by simp), if_neg hc,
          find_overlap_conflict] at hres
        exact absurd hres (by simp)
    · intro ⟨h1, h2⟩
      rw [find_overlap_conflict, if_neg (by simp), if_pos (by
        rw [Bool.and_eq_true]; exact ⟨h1, h2⟩)]
  · intro files ent s fn hs hwf hfn
    have h1 : dateLE s ent.end_date = true := dateLE_trans hs hwf
    have h2 : dateLE ent.start_date ent.start_date = true := dateLE_refl _
    have hse : dateLE s ent.start_date = true := hs
    rw [validate_calendar_entry, if_neg (by rw [hse]; simp), if_neg (by simp [hfn]),
      find_overlap_conflict, if_neg (by simp), if_pos (by
        rw [Bool.and_eq_true]; exact ⟨h1, h2⟩)]
  · intro a b c
    simp [time_overlaps]
  · intro s1 e1 s2 e2
    simp [time_overlaps]

/-- Witness for C10: touching ranges (candidate ending exactly where the
existing entry starts) are rejected, while touching time ranges do not
overlap. -/
theorem C10_inclusive_date_overlap_spec_witness :
    validate_calendar_entry ["work.json"]
      [{ start_date := { year := 2025, month := 1, day := 15 },
         end_date := { year := 2025, month := 1, day := 25 },
         schedule_filename := "work.json" }]
      { year := 2025, month := 1, day := 10 } { year := 2025, month := 1, day := 15 }
      "work.json" none =
      some (.overlap { year := 2025, month := 1, day := 15 }
        { year := 2025, month := 1, day := 25 }) :=
  C10_inclusive_date_overlap_spec.2.1 ["work.json"]
    { start_date := { year := 2025, month := 1, day := 15 },
      end_date := { year := 2025, month := 1, day := 25 },
      schedule_filename := "work.json" }
    { year := 2025, month := 1, day := 10 } "work.json" (by decide) (by decide)
    (by decide)

/-! ## `validators.py` and `calendar_io.validate_direct_event` -/

/-- Model of `validators.validate_day_field`: a single integer must lie in 0..6; a
list must be non-empty with every element in 0..6.  (The function's final
`else` branch rejects non-int/non-list Python values, which have no
representation in `DayValue`; likewise non-integer list elements.) -/
def validate_day_field (day_value : DayValue) : Bool × Option String :=
  match day_value with
  | .int d =>
      if ¬ (0 ≤ d ∧ d ≤ 6) then
        (false, some "Day must be an integer between 0 (Mon) and 6 (Sun)")
      else (true, none)
  | .list l =>
      if l = [] then (false, some "Day list cannot be empty")
      else if l.all (fun d => decide (0 ≤ d ∧ d ≤ 6)) then (true, none)
      else (false, some "Each day in the list must be an integer between 0 (Mon) and 6 (Sun)")

/-- The regex `^([01]\d|2[0-3]):([0-5]\d)$` on an exact five-character
candidate. -/
def timePatternCore (cs : List Char) : Bool :=
  match cs with
  | [h1, h2, c, m1, m2] =>
      c == ':' &&
        (((h1 == '0' || h1 == '1') && h2.isDigit) ||
          (h1 == '2' && (decide ('0' ≤ h2) && decide (h2 ≤ '3')))) &&
        (decide ('0' ≤ m1) && decide (m1 ≤ '5')) && m2.isDigit
  | _ => false

/-- Model of `re.match` of the anchored time pattern: Python's `$` also matches
just before one trailing newline. -/
def matchesTimePattern (s : String) : Bool :=
  timePatternCore s.data ||
    (match s.data.getLast? with
     | some c => c == '\n' && timePatternCore s.data.dropLast
     | none => false)

/-- Model of `validators.validate_time_fields`: both strings must match the HH:MM
pattern.  (No ordering between start and end is checked here.) -/
def validate_time_fields (start stop : String) : Bool × Option String :=
  if ! matchesTimePattern start then
    (false, some ("Invalid start time format: " ++ start))
  else if ! matchesTimePattern stop then
    (false, some ("Invalid end time format: " ++ stop))
  else (true, none)

/-- Model of `validators.validate_timestamp`: required keys `day`, `start`, `end`
(reported in that order), then day and time-format validation. -/
def validate_timestamp (ts : TSField) : Bool × Option String :=
  match ts.day with
  | none => (false, some "Missing field 'day'")
  | some d =>
      match ts.start with
      | none => (false, some "Missing field 'start'")
      | some s =>
          match ts.stop with
          | none => (false, some "Missing field 'end'")
          | some e =>
              let r := validate_day_field d
              if ! r.1 then (false, r.2)
              else validate_time_fields s e

/-- Model of `validators.validate_legacy_event`: required keys `day`, `start`,
`end`, `title`, `type` (reported in that order), then day and time-format
validation. -/
def validate_legacy_event (event : TemplateEvent) : Bool × Option String :=
  match event.day with
  | none => (false, some "Missing field 'day'")
  | some d =>
      match event.start with
      | none => (false, some "Missing field 'start'")
      | some s =>
          match event.stop with
          | none => (false, some "Missing field 'end'")
          | some e =>
              match event.title with
              | none => (false, some "Missing field 'title'")
              | some _ =>
                  match event.etype with
                  | none => (false, some "Missing field 'type'")
                  | some _ =>
                      let r := validate_day_field d
                      if ! r.1 then (false, r.2)
                      else validate_time_fields s e

/-- The indexed loop over a `timestamps` list in `validate_event`,
prefixing failures with the timestamp number (the message is always
present on failure, so `getD ""` never fires). -/
def validate_timestamps_from (idx : ℕ) : List TSField → Bool × Option String
  | [] => (true, none)
  | ts :: rest =>
      let r := validate_timestamp ts
      if ! r.1 then
        (false, some ("Timestamp #" ++ toString idx ++ ": " ++ r.2.getD ""))
      else validate_timestamps_from (idx + 1) rest

/-- Model of `validators.validate_event`: timestamped shape needs `title` and
`type` plus valid timestamps; otherwise legacy validation.  (The
`overwriteable` isinstance-bool check of lines 60-62 cannot fail in this
typed model, where the field is `Option Bool`.) -/
def validate_event (event : TemplateEvent) : Bool × Option String :=
  match event.timestamps with
  | some tss =>
      match event.title with
      | none => (false, some "Missing field 'title'")
      | some _ =>
          match event.etype with
          | none => (false, some "Missing field 'type'")
          | some _ => validate_timestamps_from 0 tss
  | none => validate_legacy_event event

/-- C6 counterexample: `validate_day_field` rejects the integer 7 (with
the 0-6 range message), so day-value validation does not accept 7. -/
theorem C6_day_seven_rejected :
    validate_day_field (.int 7) =
      (false, some "Day must be an integer between 0 (Mon) and 6 (Sun)") := by
  decide

/-- C6 (amended): day-value validation accepts exactly the integers 0
through 6 (single or inside a non-empty list); separately, the day filter
`get_events_for_day` normalizes a stored day value 7 to Sunday (6) and
passes all other values through unchanged when matching the requested
day. -/
theorem C6_validate_day_field_spec :
    (∀ d : ℤ, (validate_day_field (.int d)).1 = true ↔ (0 ≤ d ∧ d ≤ 6))
    ∧ (∀ l : List ℤ, (validate_day_field (.list l)).1 = true ↔
        (l ≠ [] ∧ ∀ d ∈ l, 0 ≤ d ∧ d ≤ 6))
    ∧ (∀ (events : List MEvent) (day_index : ℤ),
        get_events_for_day events day_index = events.filter (fun e =>
          match e.day with
          | none => false
          | some d => decide ((if d = 7 then (6 : ℤ) else d) = day_index))) := by
  refine ⟨?_, ?_, ?_⟩
  · intro d
    by_cases h : 0 ≤ d ∧ d ≤ 6
    · simp [validate_day_field, h]
    · simp [validate_day_field, h]
  · intro l
    by_cases hnil : l = []
    · subst hnil
      simp [validate_day_field]
    · by_cases hall : l.all (fun d => decide (0 ≤ d ∧ d ≤ 6)) = true
      · rw [List.all_eq_true] at hall
        simp only [validate_day_field, if_neg hnil]
        rw [if_pos (by rw [List.all_eq_true]; exact hall)]
        simpa [hnil] using fun d hd => by simpa using hall d hd
      · rw [List.all_eq_true] at hall
        push_neg at hall
        obtain ⟨d, hd, hbad⟩ := hall
        simp only [validate_day_field, if_neg hnil]
        rw [if_neg (by rw [List.all_eq_true]; push_neg; exact ⟨d, hd, hbad⟩)]
        simp only [Bool.false_eq_true, false_iff, not_and]
        intro _ hforall
        exact hbad (by simpa using hforall d hd)
  · intro events day_index
    induction events with
    | nil => rfl
    | cons e rest ih =>
        simp only [get_events_for_day]
        cases hd : e.day with
        | none => simp [List.filter_cons, hd, ih]
        | some d =>
            by_cases hn : (if d = 7 then (6 : ℤ) else d) = day_index
            · simp [List.filter_cons, hd, hn, ih]
            · simp [List.filter_cons, hd, hn, ih]

/-- Split a character list on a separator (the character-level content of
Python's `str.split(sep)` for a single-character separator). -/
def splitOnChar (sep : Char) : List Char → List (List Char)
  | [] => [[]]
  | c :: rest =>
      let r := splitOnChar sep rest
      if c == sep then [] :: r
      else
        match r with
        | [] => [[c]]
        | g :: gs => (c :: g) :: gs

/-- Decimal digits to a number (`none` when empty or non-digit): the core
of Python's `int()` on an unsigned literal. -/
def digitsToNat? (cs : List Char) : Option ℕ :=
  if cs = [] then none
  else if cs.all Char.isDigit then
    some (cs.foldl (fun acc c => acc * 10 + (c.toNat - '0'.toNat)) 0)
  else none

/-- Python's `int()` on a signed decimal literal (`none` = `ValueError`).
Python additionally strips surrounding whitespace and allows underscore
separators; such inputs never occur in `HH:MM`/`YYYY-MM-DD` data. -/
def charsToInt? (cs : List Char) : Option ℤ :=
  match cs with
  | '-' :: rest => (digitsToNat? rest).map (fun n => -(n : ℤ))
  | '+' :: rest => (digitsToNat? rest).map (fun n => (n : ℤ))
  | _ => (digitsToNat? cs).map (fun n => (n : ℤ))

/-- Model of `date_utils.parse_time` on a raw string: split on `:`, hours from the
first part, minutes from the second when present (extra parts ignored);
`none` models the `ValueError`/`IndexError` its callers catch. -/
def parseTimeOpt (time_string : String) : Option ℤ :=
  match splitOnChar ':' time_string.data with
  | [] => none
  | [h] => (charsToInt? h).map (fun hours => hours * 60)
  | h :: m :: _ => do
      let hours ← charsToInt? h
      let minutes ← charsToInt? m
      pure (hours * 60 + minutes)

/-- Gregorian leap-year rule (as `datetime` uses). -/
def isLeapYear (y : ℕ) : Bool :=
  (y % 4 == 0 && y % 100 != 0) || y % 400 == 0

/-- Days in a month of a given year. -/
def daysInMonth (y m : ℕ) : ℕ :=
  if m = 2 then (if isLeapYear y then 29 else 28)
  else if m = 4 ∨ m = 6 ∨ m = 9 ∨ m = 11 then 30
  else 31

/-- Model of `date_utils.parse_date` (`datetime.strptime(s, "%Y-%m-%d")`) on a raw
string: three dash-separated decimal fields (year up to four digits,
month/day up to two), month 1-12 and day valid for the month;
`none` models the `ValueError`. -/
def parseDateOpt (date_string : String) : Option YMDDate :=
  match splitOnChar '-' date_string.data with
  | [ys, ms, ds] => do
      let y ← digitsToNat? ys
      let m ← digitsToNat? ms
      let d ← digitsToNat? ds
      if 1 ≤ ys.length ∧ ys.length ≤ 4 ∧ 1 ≤ ms.length ∧ ms.length ≤ 2
          ∧ 1 ≤ ds.length ∧ ds.length ≤ 2
          ∧ 1 ≤ m ∧ m ≤ 12 ∧ 1 ≤ d ∧ d ≤ daysInMonth y m then
        pure { year := y, month := m, day := d }
      else none
  | _ => none

/-- A direct calendar event as submitted for validation (every key
optional; Python key `end` is `stop`, `type` is `etype`). -/
structure DirectEventData where
  date : Option String
  title : Option String
  etype : Option String
  start : Option String
  stop : Option String
  sub : Option String
deriving DecidableEq

/-- Model of `calendar_io.validate_direct_event`: required fields `date`, `title`,
`start`, `end` (reported in that order), parseable date, parseable times,
and strictly increasing start/end minutes. -/
def validate_direct_event (event_data : DirectEventData) : Bool × String :=
  match event_data.date with
  | none => (false, "Missing required field: date")
  | some date =>
      match event_data.title with
      | none => (false, "Missing required field: title")
      | some _ =>
          match event_data.start with
          | none => (false, "Missing required field: start")
          | some start =>
              match event_data.stop with
              | none => (false, "Missing required field: end")
              | some stop =>
                  match parseDateOpt date with
                  | none => (false, "Invalid date format. Use YYYY-MM-DD.")
                  | some _ =>
                      match parseTimeOpt start, parseTimeOpt stop with
                      | some start_mins, some end_mins =>
                          if start_mins ≥ end_mins then
                            (false, "Start time must be before end time.")
                          else (true, "")
                      | _, _ => (false, "Invalid time format. Use HH:MM.")

/-- A legacy schedule event whose times are well-formed `HH:MM` strings
but reversed (10:00 before 09:00). -/
def badTimesEvent : TemplateEvent :=
  { title := some "X", etype := some "work", sub := none, overwriteable := none,
    timestamps := none, day := some (.int 0), start := some "10:00",
    stop := some "09:00" }

/-- C7 counterexample: `validate_event` accepts a schedule event whose
start minutes (600) exceed its end minutes (540) — schedule-event
validation checks only the `HH:MM` format, not `start < end`. -/
theorem C7_validate_event_accepts_reversed_times :
    validate_event badTimesEvent = (true, none) ∧
    parseTimeOpt "10:00" = some 600 ∧ parseTimeOpt "09:00" = some 540 := by
  refine ⟨?_, ?_, ?_⟩ <;> decide

/-- C7 (amended): only direct-event validation enforces the ordering —
`validate_direct_event` accepts an event only if its parsed start minutes
are strictly below its parsed end minutes — while the schedule-event time
check `validate_time_fields` is exactly the `HH:MM` pattern test on both
strings, with no ordering constraint. -/
theorem C7_time_validation_spec :
    (∀ ev : DirectEventData, (validate_direct_event ev).1 = true →
        ∃ ss es s e, ev.start = some ss ∧ ev.stop = some es ∧
          parseTimeOpt ss = some s ∧ parseTimeOpt es = some e ∧ s < e)
    ∧ (∀ start stop : String, (validate_time_fields start stop).1 = true ↔
        (matchesTimePattern start = true ∧ matchesTimePattern stop = true)) := by
  constructor
  · intro ev h
    cases hdate : ev.date with
    | none => simp [validate_direct_event, hdate] at h
    | some date =>
        cases htitle : ev.title with
        | none => simp [validate_direct_event, hdate, htitle] at h
        | some title =>
            cases hstart : ev.start with
            | none => simp [validate_direct_event, hdate, htitle, hstart] at h
            | some ss =>
                cases hstop : ev.stop with
                | none => simp [validate_direct_event, hdate, htitle, hstart, hstop] at h
                | some es =>
                    cases hpd : parseDateOpt date with
                    | none =>
                        simp [validate_direct_event, hdate, htitle, hstart, hstop,
                          hpd] at h
                    | some pd =>
                        cases hps : parseTimeOpt ss with
                        | none =>
                            simp [validate_direct_event, hdate, htitle, hstart,
                              hstop, hpd, hps] at h
                        | some s =>
                            cases hpe : parseTimeOpt es with
                            | none =>
                                simp [validate_direct_event, hdate, htitle, hstart,
                                  hstop, hpd, hps, hpe] at h
                            | some e =>
                                by_cases hge : s ≥ e
                                · simp [validate_direct_event, hdate, htitle,
                                    hstart, hstop, hpd, hps, hpe, hge] at h
                                · exact ⟨ss, es, s, e, rfl, rfl, hps, hpe,
                                    by omega⟩
  · intro start stop
    by_cases h1 : matchesTimePattern start = true
    · by_cases h2 : matchesTimePattern stop = true
      · simp [validate_time_fields, h1, h2]
      · simp [validate_time_fields, h1, h2]
    · simp [validate_time_fields, h1]

/-- Sample valid direct event. -/
def sampleDirectData : DirectEventData :=
  { date := some "2025-10-08", title := some "Call", etype := some "other",
    start := some "09:15", stop := some "09:45", sub := none }

/-- Witness for C7: the amended direct-event property at a concrete
accepted event. -/
theorem C7_time_validation_spec_witness :
    ∃ ss es s e, sampleDirectData.start = some ss ∧ sampleDirectData.stop = some es ∧
      parseTimeOpt ss = some s ∧ parseTimeOpt es = some e ∧ s < e :=
  C7_time_validation_spec.1 sampleDirectData (by decide)
